import Mathlib

set_option maxRecDepth 8000

/-!
# Verification of the AI chat client (`web-gpt-mate`)

Shallow embedding of the client-side code of this repository:

* `MarkdownRenderer.processContent` — the Content Transformer that rewrites
  `【<digits>†chart】` placeholder tokens using the `toolState.id_to_iframe`
  mapping (src: MarkdownRenderer component, lines 14–34).
* the `Index` page's Client Session Controller — `handleSendMessage`'s
  streaming event loop, `cancelOngoingStream`, `loadChatHistory`,
  `handleSelectConversation` (src: Index component).

JavaScript strings are modelled as `List Char` (iteration `for (const c of s)`
walks code points, as `String.data` does); JSON payloads as the inductive
`JsValue`; React `setState` as explicit state passing over `AppState`.
-/

namespace ChatClient

/-! ## JSON runtime values

Stream events carry untyped JSON (`event.data` is `any` in the client).
`JsValue` models the JavaScript values the handlers inspect, together with
the truthiness and `typeof`-object tests the code performs. -/

inductive JsValue where
  | jstr (s : String)
  | jnum (n : Int)
  | jbool (b : Bool)
  | jnull
  | jundef
  | jobj (fields : List (String × JsValue))
  | jarr (elems : List JsValue)

/-- JavaScript truthiness of a value (`if (v)`, `v && …`, `v || …`). -/
def JsValue.truthy : JsValue → Bool
  | .jstr s => s ≠ ""
  | .jnum n => n ≠ 0
  | .jbool b => b
  | .jnull => false
  | .jundef => false
  | .jobj _ => true
  | .jarr _ => true

/-- The guard `v && typeof v === "object"` used by the `tool_state` branch:
`typeof` is `"object"` for objects, arrays and `null`, and the truthiness
conjunct rules `null` out. -/
def JsValue.isTruthyObject : JsValue → Bool
  | .jobj _ => true
  | .jarr _ => true
  | _ => false

/-- Property access `v.f` (`undefined` on non-objects, as in JS). -/
def JsValue.getField : JsValue → String → JsValue
  | .jobj fields, k =>
    match fields.lookup k with
    | some v => v
    | none => .jundef
  | _, _ => .jundef

mutual

/-- String conversion used by template literals (`` `…${v}…` ``). -/
def JsValue.jsToString : JsValue → String
  | .jstr s => s
  | .jnum n => toString n
  | .jbool b => if b then "true" else "false"
  | .jnull => "null"
  | .jundef => "undefined"
  | .jobj _ => "[object Object]"
  | .jarr xs => String.intercalate "," (jsToStringElems xs)

/-- Elementwise conversion inside an array (JS joins with `,`). -/
def jsToStringElems : List JsValue → List String
  | [] => []
  | v :: vs => v.jsToString :: jsToStringElems vs

end

mutual

/-- `JSON.stringify`, to the fidelity the reasoning branch needs (it is only
used to render an un-shaped payload as a progress note). -/
def JsValue.stringify : JsValue → String
  | .jstr s => "\"" ++ s ++ "\""
  | .jnum n => toString n
  | .jbool b => if b then "true" else "false"
  | .jnull => "null"
  | .jundef => "null"
  | .jobj fields => "\x7b" ++ String.intercalate "," (stringifyFields fields) ++ "\x7d"
  | .jarr xs => "[" ++ String.intercalate "," (stringifyElems xs) ++ "]"

/-- Fields of an object, rendered `"key":value`. -/
def stringifyFields : List (String × JsValue) → List String
  | [] => []
  | (k, v) :: fs => ("\"" ++ k ++ "\":" ++ v.stringify) :: stringifyFields fs

/-- Elements of an array. -/
def stringifyElems : List JsValue → List String
  | [] => []
  | v :: vs => v.stringify :: stringifyElems vs

end

/-! ## The Content Transformer (`MarkdownRenderer.processContent`)

```js
const chartPattern = /【(\d+†chart)】/g;
return text.replace(chartPattern, (match, key) => {
  const iframeHtml = toolState.id_to_iframe[key];
  if (iframeHtml) {
    return `\n\n${iframeHtml}\n\n`;
  }
  return match;
});
```

A global `String.replace` scans left to right, replacing every
(necessarily non-overlapping) match and copying unmatched characters.
`matchPH` decides whether the pattern matches at the head of a character
list; the regex `\d+` is effectively maximal-munch here because the digit
run is followed by the non-digit literal `†`. -/

/-- The literal part of the pattern after the digits: `†chart】`. -/
def tailLit : List Char := ['†', 'c', 'h', 'a', 'r', 't', '】']

/-- Split off the leading run of decimal digits (`\d+`, greedy). -/
def takeDigits : List Char → List Char × List Char
  | [] => ([], [])
  | c :: cs =>
    if c.isDigit then
      let p := takeDigits cs
      (c :: p.1, p.2)
    else ([], c :: cs)

/-- Consume an exact literal character sequence. -/
def dropLit : List Char → List Char → Option (List Char)
  | [], cs => some cs
  | l :: ls, c :: cs => if c = l then dropLit ls cs else none
  | _ :: _, [] => none

/-- Match `/【\d+†chart】/` at the head of the list, returning the captured
digit run and the remainder after the match. -/
def matchPH : List Char → Option (List Char × List Char)
  | [] => none
  | c :: cs' =>
    if c = '【' then
      match takeDigits cs' with
      | ([], _) => none
      | (d :: ds, r) =>
        match dropLit tailLit r with
        | some rest => some (d :: ds, rest)
        | none => none
    else none

/-- The full text of a match with digit run `ds`: `【ds†chart】`. -/
def phChars (ds : List Char) : List Char := '【' :: ds ++ tailLit

/-- The capture group (key into `id_to_iframe`): `ds†chart`. -/
def keyOf (ds : List Char) : String := String.mk (ds ++ ['†', 'c', 'h', 'a', 'r', 't'])

/-- One replacement decision, as the replacer callback makes it:
look the captured key up in `id_to_iframe`; a *truthy* hit (a non-empty
string) is wrapped in blank lines, anything else leaves the match verbatim. -/
def replOne (lookup : String → Option String) (ds : List Char) : List Char :=
  match lookup (keyOf ds) with
  | some f => if f = "" then phChars ds else '\n' :: '\n' :: (f.data ++ ['\n', '\n'])
  | none => phChars ds

/-- Fuelled scanner behind `replaceGo`.  The fuel only bounds recursion depth
so that the definition is structural (and hence kernel-computable); an
input's own length is always enough fuel (`replaceGoF_congr`). -/
def replaceGoF (lookup : String → Option String) : Nat → List Char → List Char
  | 0, cs => cs
  | _ + 1, [] => []
  | fuel + 1, c :: cs =>
    match matchPH (c :: cs) with
    | some (ds, rest) => replOne lookup ds ++ replaceGoF lookup fuel rest
    | none => c :: replaceGoF lookup fuel cs

/-- `text.replace(/【(\d+†chart)】/g, cb)`: left-to-right scan, replacing each
match via `replOne` and copying unmatched characters. -/
def replaceGo (lookup : String → Option String) (cs : List Char) : List Char :=
  replaceGoF lookup cs.length cs

/-- The `toolState` prop of `MarkdownRenderer` / `ChatMessage`
(`{ id_to_iframe?: Record<string, string> }`), per its TypeScript interface. -/
structure ToolStateMap where
  id_to_iframe : Option (List (String × String))

/-- `MarkdownRenderer.processContent` (the Content Transformer).
`!toolState?.id_to_iframe` short-circuits to the unchanged text; otherwise
the global regex replace runs over `id_to_iframe`. -/
def processContent (toolState : Option ToolStateMap) (text : String) : String :=
  match toolState with
  | none => text
  | some ts =>
    match ts.id_to_iframe with
    | none => text
    | some m => String.mk (replaceGo (fun k => m.lookup k) text.data)

/-! ## Specification-side view of the transformer

The spec describes the transformer as acting on the *placeholder structure*
of the text: the text decomposes into literal characters and recognized
placeholder tokens, and each placeholder is rewritten (or kept) according to
the mapping.  `scanSegs` computes that decomposition; the two `renderSeg`
variants then express the claimed behaviour (C3 as stated: replace whenever
the key is present) and the behaviour amended to what the code's truthiness
test does (replace only when the key maps to a non-empty fragment). -/

/-- A segment of the scanned text: a literal character or a recognized
placeholder token with digit run `ds`. -/
inductive Seg where
  | lit (c : Char)
  | ph (ds : List Char)

/-- Fuelled segment scanner (same scan order as the global regex replace). -/
def scanSegsF : Nat → List Char → List Seg
  | 0, _ => []
  | _ + 1, [] => []
  | fuel + 1, c :: cs =>
    match matchPH (c :: cs) with
    | some (ds, rest) => .ph ds :: scanSegsF fuel rest
    | none => .lit c :: scanSegsF fuel cs

/-- Decomposition of a text into literal characters and placeholder tokens. -/
def scanSegs (cs : List Char) : List Seg := scanSegsF cs.length cs

/-- Render one segment, amended semantics (= the code's truthiness test):
a placeholder is substituted only when its key maps to a non-empty fragment. -/
def renderSeg (lookup : String → Option String) : Seg → List Char
  | .lit c => [c]
  | .ph ds => replOne lookup ds

/-- Render one segment per claim C3 as stated: a placeholder whose key is
*present* in the mapping (with any value) is substituted. -/
def renderSegClaimed (lookup : String → Option String) : Seg → List Char
  | .lit c => [c]
  | .ph ds =>
    match lookup (keyOf ds) with
    | some f => '\n' :: '\n' :: (f.data ++ ['\n', '\n'])
    | none => phChars ds

/-- Concatenate rendered segments. -/
def segsRender (lookup : String → Option String) (segs : List Seg) : List Char :=
  segs.foldr (fun s acc => renderSeg lookup s ++ acc) []

/-- Concatenate segments rendered per claim C3 as stated. -/
def segsRenderClaimed (lookup : String → Option String) (segs : List Seg) : List Char :=
  segs.foldr (fun s acc => renderSegClaimed lookup s ++ acc) []

/-- Spec-side transformer (amended semantics), by decompose-then-render. -/
def processContentSpec (toolState : Option ToolStateMap) (text : String) : String :=
  match toolState with
  | none => text
  | some ts =>
    match ts.id_to_iframe with
    | none => text
    | some m => String.mk (segsRender (fun k => m.lookup k) (scanSegs text.data))

/-- Spec-side transformer exactly as claim C3 states it: every placeholder
whose key is present in the mapping is replaced by its rendering fragment. -/
def processContentClaimed (toolState : Option ToolStateMap) (text : String) : String :=
  match toolState with
  | none => text
  | some ts =>
    match ts.id_to_iframe with
    | none => text
    | some m => String.mk (segsRenderClaimed (fun k => m.lookup k) (scanSegs text.data))

/-- `phFree cs`: no recognized placeholder token occurs anywhere in `cs`
(the pattern matches at no suffix).  This is the "fragments introduce no new
placeholder tokens" side condition of claim C4. -/
def phFree : List Char → Bool
  | [] => true
  | c :: cs => (matchPH (c :: cs)).isNone && phFree cs

/-! ## Client Session Controller (the `Index` page)

State and handlers of the `Index` component.  React `useState` cells become
fields of `AppState`; the `AbortController` machinery is modelled by numeric
cancellation tokens (`abortRef` is the current `abortControllerRef.current`,
`abortedTokens` records every token whose `abort()` has been called,
`nextToken` is the fresh-token supply standing in for `new AbortController()`).
`Date.now()` is modelled by the `clock` field (constant within one handler
invocation, as all `Date.now()` calls of one prologue are treated as one
instant, matching the code's use of `t` and `t + 1` for the two message ids).
`toast(...)` appends to `toasts`. -/

/-- A client-side reasoning step (`ReasoningStep` in `types/chat`). -/
structure ReasoningStep where
  id : String
  stage : String
  message : String
  iteration : Option Int
  timestamp : Nat

/-- A client-side message (`Message` in `types/chat`); the optional
`reasoningSteps`/`isThinking` fields default to `[]`/`false`. -/
structure Message where
  id : String
  text : String
  isUser : Bool
  timestamp : Nat
  reasoningSteps : List ReasoningStep
  isThinking : Bool

/-- A sidebar conversation entry (`Conversation` in `AppSidebar`). -/
structure Conversation where
  id : String
  title : String
  lastMessage : Option String
  timestamp : Nat

/-- A surfaced notification (`toast({title, description, variant})`). -/
structure Toast where
  title : String
  description : String
  destructive : Bool

/-- One wire event of the stream (`{event, data}`). -/
structure StreamEvent where
  event : String
  data : JsValue

/-- The `Index` component's state. -/
structure AppState where
  conversations : List Conversation
  currentConversationId : Option String
  messages : List Message
  isLoading : Bool
  isLoadingHistory : Bool
  toolState : JsValue
  abortRef : Option Nat
  abortedTokens : List Nat
  nextToken : Nat
  clock : Nat
  toasts : List Toast

/-- The initial component state (`useState` initialisers; `toolState` starts
as the empty object `{}`). -/
def initState : AppState :=
  { conversations := [], currentConversationId := none, messages := [],
    isLoading := false, isLoadingHistory := false, toolState := .jobj [],
    abortRef := none, abortedTokens := [], nextToken := 0, clock := 0,
    toasts := [] }

/-- The cancellation tokens currently in flight (allocated, not aborted).
`abortRef` is an `Option`, so this list never holds more than one token. -/
def inFlight (st : AppState) : List Nat :=
  match st.abortRef with
  | some tok => if tok ∈ st.abortedTokens then [] else [tok]
  | none => []

/-- `cancelOngoingStream`: abort and drop the current controller, clear the
loading flag. -/
def cancelOngoingStream (st : AppState) : AppState :=
  match st.abortRef with
  | some tok =>
    { st with abortedTokens := tok :: st.abortedTokens, abortRef := none,
              isLoading := false }
  | none => { st with isLoading := false }

/-- A message of the history response (`{role, content}`). -/
structure HistMsg where
  role : String
  content : String

/-- One loaded message of `loadChatHistory` (`msg.content || ""` is the
identity on strings, since the only falsy string is `""` itself). -/
def loadedMessage (chatId : String) (clock : Nat) (idx : Nat) (msg : HistMsg) : Message :=
  { id := chatId ++ "-" ++ toString idx
    text := msg.content
    isUser := msg.role == "user"
    timestamp := clock
    reasoningSteps := []
    isThinking := false }

/-- `loadChatHistory`, success path with an array response: the local message
list is wholesale replaced by the mapped window; `isLoadingHistory` is set on
entry and cleared in the `finally` block. -/
def loadChatHistoryOk (st : AppState) (chatId : String) (resp : List HistMsg) : AppState :=
  { st with
    isLoadingHistory := false
    messages := resp.enum.map (fun p => loadedMessage chatId st.clock p.1 p.2) }

/-- `loadChatHistory`, failure path (`catch`): empty the list, toast. -/
def loadChatHistoryErr (st : AppState) (errMsg : String) : AppState :=
  { st with
    isLoadingHistory := false
    messages := []
    toasts := st.toasts ++ [⟨"히스토리 로드 실패", errMsg, true⟩] }

/-- `handleSelectConversation`: cancel the ongoing stream and switch the
current conversation id (the history load follows via the effect). -/
def handleSelectConversation (st : AppState) (id : String) : AppState :=
  let st1 := cancelOngoingStream st
  { st1 with currentConversationId := some id }

/-- `text.slice(0, n)`. -/
def jsSlice (s : String) (n : Nat) : String := String.mk (s.data.take n)

/-- `handleNewConversation`. -/
def handleNewConversation (st : AppState) : AppState :=
  let st1 := cancelOngoingStream st
  let conv : Conversation :=
    { id := toString st1.clock, title := "새 대화", lastMessage := none,
      timestamp := st1.clock }
  { st1 with conversations := conv :: st1.conversations,
             currentConversationId := some conv.id }

/-- Identity of the current turn: the placeholder's message id and the chat. -/
structure TurnCtx where
  aiMessageId : String
  chatId : String

/-- The event loop's state: the component state plus the loop-local
`accumulatedText` and whether a `break` has been executed. -/
structure LoopState where
  app : AppState
  accumulatedText : String
  halted : Bool
  stepCounter : Nat

/-- `setMessages(prev => prev.map(msg => msg.id === aiMessageId ? {...msg, text} : msg))`. -/
def setMsgText (aiId : String) (text : String) (msgs : List Message) : List Message :=
  msgs.map (fun m => if m.id = aiId then { m with text := text } else m)

/-- `setMessages(... {...msg, isThinking: false} ...)`. -/
def clearThinking (aiId : String) (msgs : List Message) : List Message :=
  msgs.map (fun m => if m.id = aiId then { m with isThinking := false } else m)

/-- `setMessages(... {...msg, reasoningSteps: [...(msg.reasoningSteps ?? []), step]} ...)`. -/
def addStep (aiId : String) (step : ReasoningStep) (msgs : List Message) : List Message :=
  msgs.map (fun m =>
    if m.id = aiId then { m with reasoningSteps := m.reasoningSteps ++ [step] } else m)

/-- The `token` branch's inner loop: `for (const char of chunk)`, appending
one character at a time to the accumulator and re-rendering the placeholder
after each character. -/
def applyTokenChars (aiId : String) (s : LoopState) (chunk : List Char) : LoopState :=
  chunk.foldl
    (fun st ch =>
      let acc := st.accumulatedText.push ch
      { st with
        accumulatedText := acc
        app := { st.app with messages := setMsgText aiId acc st.app.messages } })
    s

/-- The ReasoningStep the `reasoning` branch builds from a payload:
`payload = event.data ?? {}`; `stage` only when `payload?.stage` is a string;
`message` from the payload itself (if a string), its `message` field, or
`JSON.stringify`; `iteration` only when a numeric field (property access on
any non-object yields `undefined`, so the field test subsumes the
`typeof payload === "object"` guard); the step id combines the placeholder
id, the clock and a per-turn counter standing in for `Math.random()`. -/
def mkReasoningStep (ctx : TurnCtx) (s : LoopState) (d : JsValue) : ReasoningStep :=
  let payload : JsValue := match d with
    | .jnull => .jobj []
    | .jundef => .jobj []
    | d' => d'
  let stage : String := match payload.getField "stage" with
    | .jstr str => str
    | _ => "info"
  let message : String := match payload with
    | .jstr str => str
    | _ =>
      match payload.getField "message" with
      | .jstr str => str
      | _ => payload.stringify
  let iteration : Option Int := match payload.getField "iteration" with
    | .jnum n => some n
    | _ => none
  { id := ctx.aiMessageId ++ "-reason-" ++ toString s.app.clock ++ "-"
      ++ toString s.stepCounter
    stage := stage, message := message, iteration := iteration,
    timestamp := s.app.clock }

/-- One iteration of `for await (const event of stream)`: the
`if/else if` chain over `event.event`.  A `break` is modelled by setting
`halted`. -/
def applyEvent (ctx : TurnCtx) (s : LoopState) (e : StreamEvent) : LoopState :=
  if e.event = "token" then
    -- const chunk = typeof event.data === "string" ? event.data : "";
    let chunk : String := match e.data with | .jstr str => str | _ => ""
    applyTokenChars ctx.aiMessageId s chunk.data
  else if e.event = "reasoning" then
    { s with
      stepCounter := s.stepCounter + 1
      app := { s.app with
        messages := addStep ctx.aiMessageId (mkReasoningStep ctx s e.data)
          s.app.messages } }
  else if e.event = "tool_state" then
    -- if (event.data && typeof event.data === "object") setToolState(event.data);
    if e.data.isTruthyObject then
      { s with app := { s.app with toolState := e.data } }
    else s
  else if e.event = "metadata" then
    s -- console.debug only, no state mutation
  else if e.event = "error" then
    -- const errorText = event.data || "알 수 없는 오류가 발생했습니다.";
    let errorText : JsValue :=
      if e.data.truthy then e.data else .jstr "알 수 없는 오류가 발생했습니다."
    let app1 := { s.app with
      messages := setMsgText ctx.aiMessageId ("오류: " ++ errorText.jsToString)
        s.app.messages }
    let app2 := { app1 with
      messages := clearThinking ctx.aiMessageId app1.messages }
    let app3 := { app2 with
      toasts := app2.toasts ++ [⟨"오류 발생", errorText.jsToString, true⟩] }
    { s with app := app3, halted := true }
  else if e.event = "result" then
    let app1 := { s.app with
      conversations := s.app.conversations.map (fun (conv : Conversation) =>
        if conv.id = ctx.chatId then
          { conv with lastMessage := some (jsSlice s.accumulatedText 80),
                      timestamp := s.app.clock }
        else conv) }
    let app2 := { app1 with
      messages := clearThinking ctx.aiMessageId app1.messages }
    { s with app := app2, halted := true }
  else s

/-- Run the event loop over an incoming event list; once a branch executed
`break` (`halted`), no further event is applied. -/
def runLoop (ctx : TurnCtx) : LoopState → List StreamEvent → LoopState
  | s, [] => s
  | s, e :: es => if s.halted then s else runLoop ctx (applyEvent ctx s e) es

/-- `handleSendMessage` up to opening the stream: abort any previous request,
create a conversation if none is selected, append the user entry, mark
loading, refresh the conversation preview, append the "thinking" placeholder
assistant entry, and install a fresh cancellation token. -/
def submitPrologue (st : AppState) (text : String) : LoopState × TurnCtx :=
  -- if (abortControllerRef.current) abortControllerRef.current.abort();
  let st1 := match st.abortRef with
    | some tok => { st with abortedTokens := tok :: st.abortedTokens }
    | none => st
  -- let chatId = currentConversationId; if (!chatId) { create conversation }
  let p : AppState × String :=
    match st1.currentConversationId with
    | some cid => (st1, cid)
    | none =>
      let cid := toString st1.clock
      let conv : Conversation :=
        { id := cid
          title := jsSlice text 30 ++ (if 30 < text.length then "..." else "")
          lastMessage := some (jsSlice text 50)
          timestamp := st1.clock }
      ({ st1 with conversations := conv :: st1.conversations,
                  currentConversationId := some cid }, cid)
  let st2 := p.1
  let chatId := p.2
  -- setMessages(prev => [...prev, userMessage]); setIsLoading(true);
  let userMessage : Message :=
    { id := toString st2.clock, text := text, isUser := true,
      timestamp := st2.clock, reasoningSteps := [], isThinking := false }
  let st3 := { st2 with messages := st2.messages ++ [userMessage], isLoading := true }
  -- conversation preview update
  let st4 := { st3 with conversations := st3.conversations.map (fun (conv : Conversation) =>
      if conv.id = chatId then
        { conv with lastMessage := some (jsSlice text 50), timestamp := st3.clock }
      else conv) }
  -- placeholder assistant entry, aiMessageId = (Date.now() + 1).toString()
  let aiMessageId := toString (st4.clock + 1)
  let aiMessage : Message :=
    { id := aiMessageId, text := "", isUser := false, timestamp := st4.clock,
      reasoningSteps := [], isThinking := true }
  let st5 := { st4 with messages := st4.messages ++ [aiMessage] }
  -- const controller = new AbortController(); abortControllerRef.current = controller;
  let st6 := { st5 with abortRef := some st5.nextToken, nextToken := st5.nextToken + 1 }
  (⟨st6, "", false, 0⟩, ⟨aiMessageId, chatId⟩)

/-- The `finally` block: clear loading, drop the controller reference, clear
the placeholder's "thinking" flag. -/
def finallyBlock (ctx : TurnCtx) (st : AppState) : AppState :=
  { st with isLoading := false, abortRef := none,
            messages := clearThinking ctx.aiMessageId st.messages }

/-- The `catch` of an `AbortError`: clear the "thinking" flag and return
(leaving the partial text in place); the `finally` block still runs. -/
def catchAbort (ctx : TurnCtx) (st : AppState) : AppState :=
  { st with messages := clearThinking ctx.aiMessageId st.messages }

/-- A full `handleSendMessage` whose stream delivered `events` and ended
without an exception. -/
def sendMessageComplete (st : AppState) (text : String)
    (events : List StreamEvent) : AppState :=
  let p := submitPrologue st text
  let ls := runLoop p.2 p.1 events
  finallyBlock p.2 ls.app

/-- A `handleSendMessage` aborted mid-stream: `events` were applied before
the transport raised `AbortError` at the next `await`. -/
def sendMessageAborted (st : AppState) (text : String)
    (events : List StreamEvent) : AppState :=
  let p := submitPrologue st text
  let ls := runLoop p.2 p.1 events
  finallyBlock p.2 (catchAbort p.2 ls.app)

/-- The text contribution of one event to the accumulator: a `token` event
contributes its string payload (a non-string payload contributes nothing),
every other event contributes nothing. -/
def tokenText (e : StreamEvent) : String :=
  if e.event = "token" then (match e.data with | .jstr str => str | _ => "") else ""

/-- Concatenation, in arrival order, of the `token` payloads of a stream. -/
def tokenConcat : List StreamEvent → String
  | [] => ""
  | e :: es => tokenText e ++ tokenConcat es

/-! # Theorems -/

/-! ## Basic facts about the pattern matcher -/

theorem dropLit_eq_append {ls cs rest : List Char} (h : dropLit ls cs = some rest) :
    cs = ls ++ rest := by
  induction ls generalizing cs with
  | nil => simpa [dropLit] using h
  | cons l ls ih =>
    cases cs with
    | nil => simp [dropLit] at h
    | cons c cs =>
      by_cases hc : c = l
      · subst hc
        simp only [dropLit, if_pos rfl] at h
        simpa using ih h
      · simp [dropLit, hc] at h

theorem takeDigits_spec (cs : List Char) :
    cs = (takeDigits cs).1 ++ (takeDigits cs).2 ∧
      (∀ d ∈ (takeDigits cs).1, d.isDigit = true) ∧
      (∀ c r, (takeDigits cs).2 = c :: r → c.isDigit = false) := by
  induction cs with
  | nil => simp [takeDigits]
  | cons c cs ih =>
    by_cases hc : c.isDigit
    · simp only [takeDigits, if_pos hc]
      refine ⟨by simpa using ih.1, ?_, ih.2.2⟩
      intro d hd
      rcases List.mem_cons.mp hd with h | h
      · simpa [h] using hc
      · exact ih.2.1 d h
    · simp only [takeDigits, if_neg hc]
      refine ⟨rfl, by simp, ?_⟩
      intro c' r h
      cases h
      simpa using hc

theorem takeDigits_append_nondigit {ds : List Char} (hds : ∀ d ∈ ds, d.isDigit = true)
    {r : List Char} (hr : ∀ c r', r = c :: r' → c.isDigit = false) :
    takeDigits (ds ++ r) = (ds, r) := by
  induction ds with
  | nil =>
    cases r with
    | nil => simp [takeDigits]
    | cons c r' => simp [takeDigits, hr c r' rfl]
  | cons d ds ih =>
    have hd : d.isDigit = true := hds d (by simp)
    have := ih (fun x hx => hds x (by simp [hx]))
    simp [takeDigits, hd, this]

theorem dropLit_refl (ls rest : List Char) : dropLit ls (ls ++ rest) = some rest := by
  induction ls with
  | nil => simp [dropLit]
  | cons l ls ih => simp [dropLit, ih]

/-- Forward direction: a well-formed placeholder at the head always matches,
capturing exactly its digit run. -/
theorem matchPH_build {ds : List Char} (hne : ds ≠ [])
    (hds : ∀ d ∈ ds, d.isDigit = true) (rest : List Char) :
    matchPH ('【' :: ds ++ tailLit ++ rest) = some (ds, rest) := by
  have hdag : ('†' : Char).isDigit = false := by decide
  have htd : takeDigits (ds ++ (tailLit ++ rest)) = (ds, tailLit ++ rest) :=
    takeDigits_append_nondigit hds (by intro c r' h; cases h; exact hdag)
  cases ds with
  | nil => exact absurd rfl hne
  | cons d ds =>
    have hdl : dropLit tailLit (tailLit ++ rest) = some rest := dropLit_refl _ _
    simp only [List.cons_append, List.append_assoc] at htd ⊢
    simp [matchPH, htd, hdl]

/-- Inversion: every successful match decomposes the input as
`【` + (nonempty digit run) + `†chart】` + remainder. -/
theorem matchPH_inv {cs ds rest : List Char} (h : matchPH cs = some (ds, rest)) :
    ds ≠ [] ∧ (∀ d ∈ ds, d.isDigit = true) ∧ cs = '【' :: (ds ++ (tailLit ++ rest)) := by
  cases cs with
  | nil => simp [matchPH] at h
  | cons c cs' =>
    by_cases hc : c = '【'
    · subst hc
      simp only [matchPH, if_true, reduceIte] at h
      rcases htd : takeDigits cs' with ⟨ds', r⟩
      rw [htd] at h
      cases ds' with
      | nil => simp at h
      | cons d0 ds' =>
        dsimp only at h
        rcases hdl : dropLit tailLit r with _ | rest'
        · rw [hdl] at h; simp at h
        · rw [hdl] at h
          dsimp only at h
          simp only [Option.some.injEq, Prod.mk.injEq] at h
          obtain ⟨hds, hrest⟩ := h
          subst hds; subst hrest
          have hspec := takeDigits_spec cs'
          rw [htd] at hspec
          refine ⟨by simp, hspec.2.1, ?_⟩
          have : cs' = (d0 :: ds') ++ r := by simpa using hspec.1
          rw [this, dropLit_eq_append hdl]
    · simp [matchPH, hc] at h

theorem matchPH_rest_lt {cs ds rest : List Char} (h : matchPH cs = some (ds, rest)) :
    rest.length < cs.length := by
  obtain ⟨-, -, hcs⟩ := matchPH_inv h
  subst hcs
  simp [tailLit]
  omega

/-- On a match, the rewritten form of `matchPH_build`: the matched region is
`phChars ds` and the input splits as `phChars ds ++ rest`. -/
theorem matchPH_phChars {ds : List Char} (hne : ds ≠ [])
    (hds : ∀ d ∈ ds, d.isDigit = true) (rest : List Char) :
    matchPH (phChars ds ++ rest) = some (ds, rest) := by
  have := matchPH_build hne hds rest
  simpa [phChars, List.append_assoc] using this

theorem matchPH_head_ne {c : Char} {cs : List Char} (hc : c ≠ '【') :
    matchPH (c :: cs) = none := by
  simp [matchPH, hc]

/-- The matched region of a successful match contains no newline. -/
theorem matchPH_region_no_newline {cs ds rest : List Char}
    (h : matchPH cs = some (ds, rest)) : '\n' ∉ '【' :: (ds ++ tailLit) := by
  obtain ⟨-, hds, -⟩ := matchPH_inv h
  intro hmem
  rcases List.mem_cons.mp hmem with h1 | h1
  · exact absurd h1.symm (by decide)
  · rcases List.mem_append.mp h1 with h2 | h2
    · have := hds _ h2
      simp at this
    · revert h2
      decide

/-! ## Unfolding lemmas for the fuelled scanners -/

theorem replaceGoF_congr (lookup : String → Option String) :
    ∀ fuel fuel' cs, cs.length ≤ fuel → cs.length ≤ fuel' →
      replaceGoF lookup fuel cs = replaceGoF lookup fuel' cs := by
  intro fuel
  induction fuel with
  | zero =>
    intro fuel' cs h _
    have : cs = [] := List.eq_nil_of_length_eq_zero (Nat.le_zero.mp h)
    subst this
    cases fuel' <;> simp [replaceGoF]
  | succ fuel ih =>
    intro fuel' cs h h'
    cases cs with
    | nil => cases fuel' <;> simp [replaceGoF]
    | cons c cs =>
      cases fuel' with
      | zero => simp at h'
      | succ fuel' =>
        simp only [replaceGoF]
        rcases hm : matchPH (c :: cs) with _ | ⟨ds, rest⟩
        · dsimp only
          have hlen : cs.length ≤ fuel := by simpa using h
          have hlen' : cs.length ≤ fuel' := by simpa using h'
          rw [ih fuel' cs hlen hlen']
        · dsimp only
          have hlt := matchPH_rest_lt hm
          simp only [List.length_cons] at h h' hlt
          have hlen : rest.length ≤ fuel := by omega
          have hlen' : rest.length ≤ fuel' := by omega
          rw [ih fuel' rest hlen hlen']

theorem replaceGo_nil (lookup : String → Option String) : replaceGo lookup [] = [] := rfl

theorem replaceGo_cons_match (lookup : String → Option String) {c : Char}
    {cs ds rest : List Char} (h : matchPH (c :: cs) = some (ds, rest)) :
    replaceGo lookup (c :: cs) = replOne lookup ds ++ replaceGo lookup rest := by
  have hlt := matchPH_rest_lt h
  simp only [List.length_cons] at hlt
  have hle : rest.length ≤ cs.length := Nat.lt_succ_iff.mp hlt
  simp only [replaceGo, List.length_cons, replaceGoF, h]
  rw [replaceGoF_congr lookup cs.length rest.length rest hle le_rfl]

theorem replaceGo_cons_nomatch (lookup : String → Option String) {c : Char}
    {cs : List Char} (h : matchPH (c :: cs) = none) :
    replaceGo lookup (c :: cs) = c :: replaceGo lookup cs := by
  simp only [replaceGo, List.length_cons, replaceGoF, h]

theorem scanSegsF_congr :
    ∀ fuel fuel' cs, cs.length ≤ fuel → cs.length ≤ fuel' →
      scanSegsF fuel cs = scanSegsF fuel' cs := by
  intro fuel
  induction fuel with
  | zero =>
    intro fuel' cs h _
    have : cs = [] := List.eq_nil_of_length_eq_zero (Nat.le_zero.mp h)
    subst this
    cases fuel' <;> simp [scanSegsF]
  | succ fuel ih =>
    intro fuel' cs h h'
    cases cs with
    | nil => cases fuel' <;> simp [scanSegsF]
    | cons c cs =>
      cases fuel' with
      | zero => simp at h'
      | succ fuel' =>
        simp only [scanSegsF]
        rcases hm : matchPH (c :: cs) with _ | ⟨ds, rest⟩
        · dsimp only
          have hlen : cs.length ≤ fuel := by simpa using h
          have hlen' : cs.length ≤ fuel' := by simpa using h'
          rw [ih fuel' cs hlen hlen']
        · dsimp only
          have hlt := matchPH_rest_lt hm
          simp only [List.length_cons] at h h' hlt
          have hlen : rest.length ≤ fuel := by omega
          have hlen' : rest.length ≤ fuel' := by omega
          rw [ih fuel' rest hlen hlen']

theorem scanSegs_cons_match {c : Char} {cs ds rest : List Char}
    (h : matchPH (c :: cs) = some (ds, rest)) :
    scanSegs (c :: cs) = .ph ds :: scanSegs rest := by
  have hlt := matchPH_rest_lt h
  simp only [List.length_cons] at hlt
  have hle : rest.length ≤ cs.length := Nat.lt_succ_iff.mp hlt
  simp only [scanSegs, List.length_cons, scanSegsF, h]
  rw [scanSegsF_congr cs.length rest.length rest hle le_rfl]

theorem scanSegs_cons_nomatch {c : Char} {cs : List Char}
    (h : matchPH (c :: cs) = none) :
    scanSegs (c :: cs) = .lit c :: scanSegs cs := by
  simp only [scanSegs, List.length_cons, scanSegsF, h]

/-- Fusion: the code's fused scan-and-replace equals decompose-then-render. -/
theorem replaceGo_eq_segsRender (lookup : String → Option String) (cs : List Char) :
    replaceGo lookup cs = segsRender lookup (scanSegs cs) := by
  have main : ∀ n cs, List.length cs ≤ n →
      replaceGo lookup cs = segsRender lookup (scanSegs cs) := by
    intro n
    induction n with
    | zero =>
      intro cs h
      have : cs = [] := List.eq_nil_of_length_eq_zero (Nat.le_zero.mp h)
      subst this
      rfl
    | succ n ih =>
      intro cs h
      cases cs with
      | nil => rfl
      | cons c cs =>
        rcases hm : matchPH (c :: cs) with _ | ⟨ds, rest⟩
        · rw [replaceGo_cons_nomatch lookup hm, scanSegs_cons_nomatch hm]
          have : cs.length ≤ n := by simpa using h
          rw [ih cs this]
          rfl
        · rw [replaceGo_cons_match lookup hm, scanSegs_cons_match hm]
          have hlt := matchPH_rest_lt hm
          simp only [List.length_cons] at hlt h
          have : rest.length ≤ n := by omega
          rw [ih rest this]
          rfl
  exact main cs.length cs le_rfl

/-! ## Rescanning the transformer's own output (towards idempotence, C4) -/

/-- The scan never changes the head character of its output except by
emitting the `\n` that opens a substituted fragment. -/
theorem replaceGo_head (lookup : String → Option String) (c : Char) (cs : List Char) :
    ∃ hd t, replaceGo lookup (c :: cs) = hd :: t ∧ (hd = c ∨ hd = '\n') := by
  rcases hm : matchPH (c :: cs) with _ | ⟨ds, rest⟩
  · exact ⟨c, replaceGo lookup cs, replaceGo_cons_nomatch lookup hm, Or.inl rfl⟩
  · obtain ⟨-, -, hdec⟩ := matchPH_inv hm
    have hc : c = '【' := by
      have := congrArg (fun l => l.head?) hdec
      simpa using this
    rw [replaceGo_cons_match lookup hm]
    unfold replOne
    rcases hlk : lookup (keyOf ds) with _ | f
    · exact ⟨'【', ds ++ tailLit ++ replaceGo lookup rest, by simp [phChars], Or.inl hc.symm⟩
    · by_cases hf : f = ""
      · exact ⟨'【', ds ++ tailLit ++ replaceGo lookup rest,
          by simp [phChars, hf], Or.inl hc.symm⟩
      · exact ⟨'\n', '\n' :: (f.data ++ ['\n', '\n']) ++ replaceGo lookup rest,
          by simp [hf], Or.inr rfl⟩

theorem replaceGo_copy (lookup : String → Option String) {c : Char} (hc : c ≠ '【')
    (cs : List Char) : replaceGo lookup (c :: cs) = c :: replaceGo lookup cs :=
  replaceGo_cons_nomatch lookup (matchPH_head_ne hc)

/-- A digit run at the head of the input survives the scan verbatim, and the
character following it stays a non-digit. -/
theorem takeDigits_replaceGo (lookup : String → Option String) :
    ∀ cs ds r, takeDigits cs = (ds, r) →
      takeDigits (replaceGo lookup cs) = (ds, replaceGo lookup r) := by
  intro cs
  induction cs with
  | nil =>
    intro ds r h
    simp only [takeDigits, Prod.mk.injEq] at h
    obtain ⟨h1, h2⟩ := h
    subst h1; subst h2
    rfl
  | cons c cs ih =>
    intro ds r h
    by_cases hc : c.isDigit
    · simp only [takeDigits, if_pos hc, Prod.mk.injEq] at h
      obtain ⟨h1, h2⟩ := h
      have hne : c ≠ '【' := by
        intro he
        subst he
        exact absurd hc (by decide)
      rw [replaceGo_copy lookup hne cs]
      have := ih (takeDigits cs).1 (takeDigits cs).2 rfl
      rw [← h2]
      simp [takeDigits, hc, this, ← h1]
    · simp only [takeDigits, if_neg hc, Prod.mk.injEq] at h
      obtain ⟨h1, h2⟩ := h
      subst h1
      rw [← h2]
      obtain ⟨hd, t, heq, hor⟩ := replaceGo_head lookup c cs
      rw [heq]
      have hhd : hd.isDigit = false := by
        rcases hor with h | h
        · rw [h]; simpa using hc
        · rw [h]; decide
      simp [takeDigits, hhd]

/-- A literal (bracket-free, newline-free) run consumed from the scan's
output was already consumable from the input, and the leftovers correspond. -/
theorem dropLit_replaceGo (lookup : String → Option String) :
    ∀ L, '【' ∉ L → '\n' ∉ L → ∀ cs t', dropLit L (replaceGo lookup cs) = some t' →
      ∃ t, dropLit L cs = some t ∧ t' = replaceGo lookup t := by
  intro L
  induction L with
  | nil =>
    intro _ _ cs t' h
    simp only [dropLit, Option.some.injEq] at h
    exact ⟨cs, rfl, h.symm⟩
  | cons x L ih =>
    intro hbr hnl cs t' h
    cases cs with
    | nil => simp [dropLit] at h
    | cons c cs =>
      obtain ⟨hd, t, heq, hor⟩ := replaceGo_head lookup c cs
      rw [heq] at h
      by_cases hx : hd = x
      · have hdc : hd = c := by
          rcases hor with h' | h'
          · exact h'
          · exfalso
            apply hnl
            rw [← hx, h']
            exact List.mem_cons_self _ _
        have hcx : c = x := by rw [← hdc, hx]
        have hcne : c ≠ '【' := by
          intro he
          apply hbr
          have hx' : x = '【' := by rw [← hcx, he]
          rw [hx']
          exact List.mem_cons_self _ _
        have hcopy := replaceGo_copy lookup hcne cs
        rw [heq] at hcopy
        injection hcopy with h1 h2
        rw [h2] at h
        have h' : dropLit L (replaceGo lookup cs) = some t' := by
          simpa [dropLit, hx] using h
        obtain ⟨t0, ht0, ht0'⟩ := ih (fun hm => hbr (List.mem_cons_of_mem _ hm))
          (fun hm => hnl (List.mem_cons_of_mem _ hm)) cs t' h'
        exact ⟨t0, by simp [dropLit, hcx, ht0], ht0'⟩
      · simp [dropLit, hx] at h

/-- If the pattern does not match at a position of the input, it still does
not match there after the rest of the input has been rewritten. -/
theorem matchPH_none_replaceGo (lookup : String → Option String) {c : Char}
    {cs : List Char} (h : matchPH (c :: cs) = none) :
    matchPH (c :: replaceGo lookup cs) = none := by
  by_cases hc : c = '【'
  · subst hc
    simp only [matchPH, if_true, reduceIte] at h ⊢
    rcases htd : takeDigits cs with ⟨ds, r⟩
    rw [htd] at h
    rw [takeDigits_replaceGo lookup cs ds r htd]
    cases ds with
    | nil => rfl
    | cons d0 ds =>
      dsimp only at h ⊢
      rcases hdl : dropLit tailLit r with _ | rest
      · rcases hdl' : dropLit tailLit (replaceGo lookup r) with _ | t'
        · rfl
        · obtain ⟨t, ht, -⟩ := dropLit_replaceGo lookup tailLit (by decide) (by decide) r t' hdl'
          rw [ht] at hdl
          cases hdl
      · rw [hdl] at h
        simp at h
  · exact matchPH_head_ne hc

/-- A match found in `s ++ '\n' :: b` cannot straddle the newline: it lies
entirely inside `s`. -/
theorem matchPH_append_newline {s b ds rest : List Char}
    (h : matchPH (s ++ '\n' :: b) = some (ds, rest)) :
    ∃ rest', matchPH s = some (ds, rest') ∧ rest = rest' ++ '\n' :: b := by
  obtain ⟨hne, hds, hdec⟩ := matchPH_inv h
  have hnl : '\n' ∉ '【' :: (ds ++ tailLit) := matchPH_region_no_newline h
  have hdec' : s ++ '\n' :: b = ('【' :: (ds ++ tailLit)) ++ rest := by
    simpa [List.append_assoc] using hdec
  rcases List.append_eq_append_iff.mp hdec' with ⟨a', ha1, ha2⟩ | ⟨c', hc1, hc2⟩
  · cases a' with
    | nil =>
      refine ⟨[], ?_, by simpa using ha2.symm⟩
      have hs : s = phChars ds := by simpa [phChars] using ha1.symm
      rw [hs, ← List.append_nil (phChars ds)]
      exact matchPH_phChars hne hds []
    | cons x a'' =>
      exfalso
      have hx : x = '\n' := by
        have := congrArg (fun l => l.head?) ha2
        simpa using this.symm
      subst hx
      exact hnl (ha1 ▸ List.mem_append.mpr (Or.inr (List.mem_cons_self _ _)))
  · refine ⟨c', ?_, hc2⟩
    have hs : s = phChars ds ++ c' := by simpa [phChars] using hc1
    rw [hs]
    exact matchPH_phChars hne hds c'

/-- Scanning walks through a placeholder-free block unchanged when the block
is followed by a newline. -/
theorem replaceGo_append_free (lookup : String → Option String) :
    ∀ f, phFree f = true → ∀ X,
      replaceGo lookup (f ++ '\n' :: X) = f ++ replaceGo lookup ('\n' :: X) := by
  intro f
  induction f with
  | nil => intro _ X; rfl
  | cons c f ih =>
    intro hfree X
    have hfree' : (matchPH (c :: f)).isNone = true ∧ phFree f = true := by
      simpa [phFree, Bool.and_eq_true] using hfree
    have hnone : matchPH (c :: (f ++ '\n' :: X)) = none := by
      rcases hm : matchPH (c :: (f ++ '\n' :: X)) with _ | ⟨ds, rest⟩
      · rfl
      · exfalso
        have : matchPH ((c :: f) ++ '\n' :: X) = some (ds, rest) := by simpa using hm
        obtain ⟨rest', hmatch, -⟩ := matchPH_append_newline this
        rw [hmatch] at hfree'
        simp at hfree'
    have : (c :: f) ++ '\n' :: X = c :: (f ++ '\n' :: X) := rfl
    rw [this, replaceGo_cons_nomatch lookup hnone, ih hfree'.2 X]
    rfl

/-- Idempotence of the scan: rewriting the scan's own output changes nothing,
provided every fragment the mapping can substitute is free of placeholder
tokens. -/
theorem replaceGo_idem (lookup : String → Option String)
    (hl : ∀ k f, lookup k = some f → phFree f.data = true) :
    ∀ cs, replaceGo lookup (replaceGo lookup cs) = replaceGo lookup cs := by
  have hcr : ∀ T, replaceGo lookup ('\n' :: T) = '\n' :: replaceGo lookup T := by
    intro T
    exact replaceGo_copy lookup (by decide) T
  have main : ∀ n cs, List.length cs ≤ n →
      replaceGo lookup (replaceGo lookup cs) = replaceGo lookup cs := by
    intro n
    induction n with
    | zero =>
      intro cs h
      have : cs = [] := List.eq_nil_of_length_eq_zero (Nat.le_zero.mp h)
      subst this
      rfl
    | succ n ih =>
      intro cs h
      cases cs with
      | nil => rfl
      | cons c cs =>
        rcases hm : matchPH (c :: cs) with _ | ⟨ds, rest⟩
        · rw [replaceGo_cons_nomatch lookup hm,
            replaceGo_cons_nomatch lookup (matchPH_none_replaceGo lookup hm),
            ih cs (by simpa using h)]
        · obtain ⟨hne, hds, -⟩ := matchPH_inv hm
          have hrl : rest.length ≤ n := by
            have := matchPH_rest_lt hm
            simp only [List.length_cons] at this h
            omega
          have hR := ih rest hrl
          rw [replaceGo_cons_match lookup hm]
          rcases hlk : lookup (keyOf ds) with _ | f
          · have hone : replOne lookup ds = phChars ds := by simp [replOne, hlk]
            rw [hone]
            have hmm : matchPH (phChars ds ++ replaceGo lookup rest)
                = some (ds, replaceGo lookup rest) := matchPH_phChars hne hds _
            have hcons : phChars ds ++ replaceGo lookup rest
                = '【' :: (ds ++ tailLit ++ replaceGo lookup rest) := by
              simp [phChars]
            rw [hcons] at hmm ⊢
            rw [replaceGo_cons_match lookup hmm, hone, hR]
            simp [phChars]
          · by_cases hf : f = ""
            · have hone : replOne lookup ds = phChars ds := by simp [replOne, hlk, hf]
              rw [hone]
              have hmm : matchPH (phChars ds ++ replaceGo lookup rest)
                  = some (ds, replaceGo lookup rest) := matchPH_phChars hne hds _
              have hcons : phChars ds ++ replaceGo lookup rest
                  = '【' :: (ds ++ tailLit ++ replaceGo lookup rest) := by
                simp [phChars]
              rw [hcons] at hmm ⊢
              rw [replaceGo_cons_match lookup hmm, hone, hR]
              simp [phChars]
            · have hone : replOne lookup ds
                  = '\n' :: '\n' :: (f.data ++ ['\n', '\n']) := by
                simp [replOne, hlk, hf]
              rw [hone]
              have hfr : phFree f.data = true := hl _ _ hlk
              have hassoc :
                  ('\n' :: '\n' :: (f.data ++ ['\n', '\n'])) ++ replaceGo lookup rest
                    = '\n' :: '\n' :: (f.data ++ '\n' :: '\n' :: replaceGo lookup rest) := by
                simp
              rw [hassoc, hcr, hcr, replaceGo_append_free lookup f.data hfr, hcr, hcr, hR]
  intro cs
  exact main cs.length cs le_rfl

/-! ## Controller helper lemmas -/

/-- Concrete states reused by the witnesses below. -/
def demoCtx : TurnCtx := ⟨"9", "c"⟩

/-- A loop state over the initial component state. -/
def demoLoop : LoopState := ⟨initState, "", false, 0⟩

theorem runLoop_halted (ctx : TurnCtx) (s : LoopState) (es : List StreamEvent)
    (h : s.halted = true) : runLoop ctx s es = s := by
  cases es <;> simp [runLoop, h]

theorem runLoop_append (ctx : TurnCtx) (es es' : List StreamEvent) :
    ∀ s, runLoop ctx s (es ++ es') = runLoop ctx (runLoop ctx s es) es' := by
  induction es with
  | nil => intro s; rfl
  | cons e es ih =>
    intro s
    by_cases h : s.halted
    · simp [runLoop, h, runLoop_halted ctx s es' h]
    · simp only [List.cons_append, runLoop, if_neg h]
      exact ih (applyEvent ctx s e)

theorem setMsgText_setMsgText (aiId : String) (t1 t2 : String) (msgs : List Message) :
    setMsgText aiId t2 (setMsgText aiId t1 msgs) = setMsgText aiId t2 msgs := by
  simp only [setMsgText, List.map_map]
  congr 1
  funext m
  by_cases h : m.id = aiId <;> simp [h]

theorem clearThinking_setMsgText (aiId : String) (t : String) (msgs : List Message) :
    clearThinking aiId (setMsgText aiId t msgs)
      = msgs.map (fun m =>
          if m.id = aiId then { m with text := t, isThinking := false } else m) := by
  simp only [clearThinking, setMsgText, List.map_map]
  congr 1
  funext m
  by_cases h : m.id = aiId <;> simp [h]

theorem cancelOngoingStream_fields (st : AppState) :
    (cancelOngoingStream st).toolState = st.toolState ∧
      (cancelOngoingStream st).clock = st.clock ∧
      (cancelOngoingStream st).messages = st.messages ∧
      (cancelOngoingStream st).conversations = st.conversations ∧
      (cancelOngoingStream st).isLoading = false ∧
      (cancelOngoingStream st).abortRef = none := by
  rcases h : st.abortRef with _ | tok <;> simp [cancelOngoingStream, h]

/-- Characterization of the `token` branch's character loop: it appends the
whole chunk to the accumulator and rewrites the placeholder's text to the new
accumulator (no other field changes); an empty chunk changes nothing. -/
theorem applyTokenChars_spec (aiId : String) :
    ∀ chunk (s : LoopState),
      applyTokenChars aiId s chunk =
        match chunk with
        | [] => s
        | _ :: _ =>
          { s with
            accumulatedText := String.mk (s.accumulatedText.data ++ chunk)
            app := { s.app with
              messages := setMsgText aiId
                (String.mk (s.accumulatedText.data ++ chunk)) s.app.messages } } := by
  intro chunk
  induction chunk with
  | nil => intro s; rfl
  | cons c rest ih =>
    intro s
    have hstep : applyTokenChars aiId s (c :: rest)
        = applyTokenChars aiId
            { s with
              accumulatedText := s.accumulatedText.push c
              app := { s.app with
                messages := setMsgText aiId (s.accumulatedText.push c) s.app.messages } }
            rest := rfl
    rw [hstep, ih]
    cases rest with
    | nil => rfl
    | cons r rs =>
      dsimp only
      have hpush : (s.accumulatedText.push c).data = s.accumulatedText.data ++ [c] := rfl
      rw [hpush, setMsgText_setMsgText, List.append_cons s.accumulatedText.data c (r :: rs)]

/-! ## C1 — `tool_state` handling -/

/-- Counterexample to claim C1 as stated: `tool_state` does *not* merge.
After a prior `tool_state` carrying fragment `1†chart ↦ "A"`, a second
`tool_state` event whose payload only carries `2†chart` erases the first
key entirely (the claim says a key absent from the payload keeps its
previous value). -/
theorem toolState_event_merge_cex :
    ((applyEvent ⟨"9", "c"⟩
          ⟨{ initState with
              toolState := .jobj [("id_to_iframe", .jobj [("1†chart", .jstr "A")])] },
            "", false, 0⟩
          ⟨"tool_state", .jobj [("id_to_iframe", .jobj [("2†chart", .jstr "B")])]⟩
        ).app.toolState.getField "id_to_iframe").getField "1†chart" = .jundef ∧
      ((JsValue.jobj [("id_to_iframe", .jobj [("1†chart", .jstr "A")])]).getField
          "id_to_iframe").getField "1†chart" = .jstr "A" ∧
      ((JsValue.jobj [("id_to_iframe", .jobj [("2†chart", .jstr "B")])]).getField
          "id_to_iframe").getField "1†chart" = .jundef :=
  ⟨rfl, rfl, rfl⟩

/-- Claim C1 (amended): a `tool_state` event whose payload passes the
object-guard *replaces* the controller's ToolState wholesale with the
payload (keys absent from the payload are dropped, not kept); no other
state field changes. -/
theorem toolState_event_replaces_wholesale (ctx : TurnCtx) (s : LoopState)
    (e : StreamEvent) (hev : e.event = "tool_state")
    (hobj : e.data.isTruthyObject = true) :
    applyEvent ctx s e = { s with app := { s.app with toolState := e.data } } := by
  simp [applyEvent, hev, hobj]

theorem toolState_event_replaces_wholesale_witness :
    applyEvent ⟨"9", "c"⟩ ⟨initState, "", false, 0⟩
        ⟨"tool_state", .jobj [("k", .jstr "v")]⟩
      = ⟨{ initState with toolState := .jobj [("k", .jstr "v")] }, "", false, 0⟩ :=
  toolState_event_replaces_wholesale ⟨"9", "c"⟩ ⟨initState, "", false, 0⟩
    ⟨"tool_state", .jobj [("k", .jstr "v")]⟩ rfl rfl

/-! ## C5 — conversation switch / history load -/

/-- Counterexample to claim C5 as stated: switching conversation and loading
the new history *retains* the previous conversation's ToolState (the claim
says it is discarded): the stale fragment is still reachable afterwards. -/
theorem history_load_toolState_cex :
    ((loadChatHistoryOk
          (handleSelectConversation
            { initState with
                toolState := .jobj [("id_to_iframe", .jobj [("1†chart", .jstr "A")])]
                currentConversationId := some "c1" }
            "c2")
          "c2" [⟨"user", "hi"⟩]).toolState.getField "id_to_iframe").getField "1†chart"
      = .jstr "A" := rfl

/-- Claim C5 (amended): a conversation switch plus history load replaces the entire
local message list with the mapped server window — in particular every loaded
entry has an empty ReasoningStep list and a cleared "thinking" flag, so the
previous conversation's ReasoningSteps are discarded — but the ToolState
mapping is retained unchanged, not discarded. -/
theorem history_load_replaces_messages (st : AppState) (cid : String)
    (resp : List HistMsg) :
    (loadChatHistoryOk (handleSelectConversation st cid) cid resp).messages
        = resp.enum.map (fun p => loadedMessage cid st.clock p.1 p.2) ∧
      (∀ m ∈ (loadChatHistoryOk (handleSelectConversation st cid) cid resp).messages,
        m.reasoningSteps = [] ∧ m.isThinking = false) ∧
      (loadChatHistoryOk (handleSelectConversation st cid) cid resp).toolState
        = st.toolState ∧
      (loadChatHistoryOk (handleSelectConversation st cid) cid resp).currentConversationId
        = some cid := by
  obtain ⟨hts, hck, -, -, -, -⟩ := cancelOngoingStream_fields st
  refine ⟨?_, ?_, ?_, ?_⟩
  · simp [loadChatHistoryOk, handleSelectConversation, hck]
  · intro m hm
    simp only [loadChatHistoryOk, List.mem_map] at hm
    obtain ⟨p, -, rfl⟩ := hm
    exact ⟨rfl, rfl⟩
  · simp [loadChatHistoryOk, handleSelectConversation, hts]
  · simp [loadChatHistoryOk, handleSelectConversation]

/-! ## C10 — totality of the event handling -/

/-- Claim C10: the handler is total over arbitrary payloads: an unrecognized event
name leaves the state unchanged; a `token` event with a non-string payload
contributes the empty chunk and changes nothing; a `tool_state` event whose
payload fails the object-guard is ignored. -/
theorem event_handling_total (ctx : TurnCtx) (s : LoopState) (e : StreamEvent) :
    (e.event ≠ "token" → e.event ≠ "reasoning" → e.event ≠ "tool_state" →
      e.event ≠ "metadata" → e.event ≠ "error" → e.event ≠ "result" →
      applyEvent ctx s e = s) ∧
    (e.event = "token" → (∀ str, e.data ≠ .jstr str) → applyEvent ctx s e = s) ∧
    (e.event = "tool_state" → e.data.isTruthyObject = false → applyEvent ctx s e = s) := by
  refine ⟨?_, ?_, ?_⟩
  · intro h1 h2 h3 h4 h5 h6
    simp [applyEvent, h1, h2, h3, h4, h5, h6]
  · intro h1 h2
    have hchunk : (match e.data with | .jstr str => str | _ => "") = "" := by
      cases hd : e.data with
      | jstr str => exact absurd hd (h2 str)
      | _ => rfl
    simp [applyEvent, h1, hchunk, applyTokenChars]
  · intro h1 h2
    simp [applyEvent, h1, h2]

theorem event_handling_total_witness :
    applyEvent demoCtx demoLoop ⟨"bogus", .jstr "x"⟩ = demoLoop ∧
      applyEvent demoCtx demoLoop ⟨"token", .jnum 3⟩ = demoLoop ∧
      applyEvent demoCtx demoLoop ⟨"tool_state", .jstr "x"⟩ = demoLoop :=
  ⟨(event_handling_total demoCtx demoLoop ⟨"bogus", .jstr "x"⟩).1 (by decide) (by decide)
      (by decide) (by decide) (by decide) (by decide),
    (event_handling_total demoCtx demoLoop ⟨"token", .jnum 3⟩).2.1 rfl
      (fun str h => JsValue.noConfusion h),
    (event_handling_total demoCtx demoLoop ⟨"tool_state", .jstr "x"⟩).2.2 rfl rfl⟩

/-! ## C9 — frame property of the event handlers -/

/-- Claim C9: each of the `token`, `reasoning`, `error`, `result` branches rewrites
the message list elementwise by a function that fixes every message whose id
is not the current placeholder's; ToolState is untouched; the conversation
list is untouched except that `result` rewrites it elementwise by a function
fixing every entry other than the current chat's. -/
theorem event_frame (ctx : TurnCtx) (s : LoopState) (e : StreamEvent)
    (he : e.event = "token" ∨ e.event = "reasoning" ∨ e.event = "error" ∨
      e.event = "result") :
    (∃ f : Message → Message,
        (applyEvent ctx s e).app.messages = s.app.messages.map f ∧
        ∀ m, m.id ≠ ctx.aiMessageId → f m = m) ∧
    (applyEvent ctx s e).app.toolState = s.app.toolState ∧
    (∃ g : Conversation → Conversation,
        (applyEvent ctx s e).app.conversations = s.app.conversations.map g ∧
        ∀ c, c.id ≠ ctx.chatId → g c = c) ∧
    (e.event ≠ "result" → (applyEvent ctx s e).app.conversations
        = s.app.conversations) := by
  rcases he with he | he | he | he
  · -- token
    have happ : applyEvent ctx s e
        = applyTokenChars ctx.aiMessageId s
            (match e.data with | .jstr str => str | _ => "").data := by
      simp [applyEvent, he]
    rw [happ, applyTokenChars_spec]
    rcases hd : (match e.data with | .jstr str => str | _ => "").data with _ | ⟨c, rest⟩ <;>
      rw [hd]
    · exact ⟨⟨id, by simp, fun _ _ => rfl⟩, rfl, ⟨id, by simp, fun _ _ => rfl⟩,
        fun _ => rfl⟩
    · refine ⟨⟨fun m => if m.id = ctx.aiMessageId then
          { m with text := String.mk (s.accumulatedText.data ++ c :: rest) } else m,
          rfl, fun m hm => by simp [hm]⟩, rfl, ⟨id, by simp, fun _ _ => rfl⟩,
        fun _ => rfl⟩
  · -- reasoning
    have happ : applyEvent ctx s e = { s with
        stepCounter := s.stepCounter + 1
        app := { s.app with
          messages := addStep ctx.aiMessageId (mkReasoningStep ctx s e.data)
            s.app.messages } } := by
      simp [applyEvent, he]
    rw [happ]
    exact ⟨⟨fun m => if m.id = ctx.aiMessageId then
        { m with reasoningSteps := m.reasoningSteps ++ [mkReasoningStep ctx s e.data] }
        else m, rfl, fun m hm => by simp [hm]⟩, rfl,
      ⟨id, by simp, fun _ _ => rfl⟩, fun _ => rfl⟩
  · -- error
    have happ : applyEvent ctx s e = { s with
        halted := true
        app := { s.app with
          messages := clearThinking ctx.aiMessageId (setMsgText ctx.aiMessageId
            ("오류: " ++ (if e.data.truthy then e.data
              else JsValue.jstr "알 수 없는 오류가 발생했습니다.").jsToString)
            s.app.messages)
          toasts := s.app.toasts ++ [⟨"오류 발생",
            (if e.data.truthy then e.data
              else JsValue.jstr "알 수 없는 오류가 발생했습니다.").jsToString, true⟩] } } := by
      simp [applyEvent, he]
    rw [happ]
    refine ⟨⟨fun m => if m.id = ctx.aiMessageId then
        { m with
          text := "오류: " ++ (if e.data.truthy then e.data
            else JsValue.jstr "알 수 없는 오류가 발생했습니다.").jsToString
          isThinking := false }
        else m, ?_, fun m hm => by simp [hm]⟩, rfl,
      ⟨id, by simp, fun _ _ => rfl⟩, fun _ => rfl⟩
    exact clearThinking_setMsgText ctx.aiMessageId _ s.app.messages
  · -- result
    refine ⟨⟨fun m => if m.id = ctx.aiMessageId then { m with isThinking := false }
        else m, ?_, fun m hm => by simp [hm]⟩, ?_,
      ⟨fun c => if c.id = ctx.chatId then
        { c with lastMessage := some (jsSlice s.accumulatedText 80),
                 timestamp := s.app.clock }
        else c, ?_, fun c hc => by simp [hc]⟩, ?_⟩ <;>
      simp [applyEvent, he, clearThinking]

theorem event_frame_witness :
    ((∃ f : Message → Message,
        (applyEvent demoCtx demoLoop ⟨"token", .jstr "hi"⟩).app.messages
          = demoLoop.app.messages.map f ∧
        ∀ m, m.id ≠ demoCtx.aiMessageId → f m = m) ∧
      (applyEvent demoCtx demoLoop ⟨"token", .jstr "hi"⟩).app.toolState
        = demoLoop.app.toolState ∧
      (∃ g : Conversation → Conversation,
        (applyEvent demoCtx demoLoop ⟨"token", .jstr "hi"⟩).app.conversations
          = demoLoop.app.conversations.map g ∧
        ∀ c, c.id ≠ demoCtx.chatId → g c = c) ∧
      (StreamEvent.event ⟨"token", .jstr "hi"⟩ ≠ "result" →
        (applyEvent demoCtx demoLoop ⟨"token", .jstr "hi"⟩).app.conversations
          = demoLoop.app.conversations)) :=
  event_frame demoCtx demoLoop ⟨"token", .jstr "hi"⟩ (Or.inl rfl)

/-! ## C6 — terminal `error` events -/

/-- Claim C6: an `error` event replaces the placeholder's text with the
error-formatted message, clears its "thinking" flag, appends a destructive
notification, and halts the loop so that no later event of the stream is
applied; every message other than the placeholder is left unchanged. -/
theorem error_event_halts (ctx : TurnCtx) (s : LoopState) (d : JsValue)
    (rest : List StreamEvent) (hh : s.halted = false) :
    runLoop ctx s (⟨"error", d⟩ :: rest) = applyEvent ctx s ⟨"error", d⟩ ∧
    (applyEvent ctx s ⟨"error", d⟩).app.messages
      = s.app.messages.map (fun m =>
          if m.id = ctx.aiMessageId then
            { m with
              text := "오류: " ++ (if d.truthy then d
                else .jstr "알 수 없는 오류가 발생했습니다.").jsToString
              isThinking := false }
          else m) ∧
    (applyEvent ctx s ⟨"error", d⟩).app.toasts
      = s.app.toasts ++ [⟨"오류 발생",
          (if d.truthy then d
            else .jstr "알 수 없는 오류가 발생했습니다.").jsToString, true⟩] ∧
    (applyEvent ctx s ⟨"error", d⟩).halted = true ∧
    ∀ m ∈ s.app.messages, m.id ≠ ctx.aiMessageId →
      m ∈ (applyEvent ctx s ⟨"error", d⟩).app.messages := by
  have hhalt : (applyEvent ctx s ⟨"error", d⟩).halted = true := by
    simp [applyEvent]
  have hmsg : (applyEvent ctx s ⟨"error", d⟩).app.messages
      = s.app.messages.map (fun m =>
          if m.id = ctx.aiMessageId then
            { m with
              text := "오류: " ++ (if d.truthy then d
                else .jstr "알 수 없는 오류가 발생했습니다.").jsToString
              isThinking := false }
          else m) := by
    simp [applyEvent, clearThinking_setMsgText]
  refine ⟨?_, hmsg, ?_, hhalt, ?_⟩
  · have hstep : runLoop ctx s (⟨"error", d⟩ :: rest)
        = runLoop ctx (applyEvent ctx s ⟨"error", d⟩) rest := by
      simp [runLoop, hh]
    rw [hstep]
    exact runLoop_halted ctx _ rest hhalt
  · simp [applyEvent]
  · intro m hm hne
    rw [hmsg]
    refine List.mem_map.mpr ⟨m, hm, ?_⟩
    simp [hne]

theorem error_event_halts_witness :
    (runLoop demoCtx demoLoop (⟨"error", .jstr "boom"⟩ :: [⟨"token", .jstr "zzz"⟩])
        = applyEvent demoCtx demoLoop ⟨"error", .jstr "boom"⟩ ∧
      (applyEvent demoCtx demoLoop ⟨"error", .jstr "boom"⟩).app.messages
        = demoLoop.app.messages.map (fun m =>
            if m.id = demoCtx.aiMessageId then
              { m with
                text := "오류: " ++ (if (JsValue.jstr "boom").truthy
                  then JsValue.jstr "boom"
                  else JsValue.jstr "알 수 없는 오류가 발생했습니다.").jsToString
                isThinking := false }
            else m) ∧
      (applyEvent demoCtx demoLoop ⟨"error", .jstr "boom"⟩).app.toasts
        = demoLoop.app.toasts ++ [⟨"오류 발생",
            (if (JsValue.jstr "boom").truthy then JsValue.jstr "boom"
              else JsValue.jstr "알 수 없는 오류가 발생했습니다.").jsToString, true⟩] ∧
      (applyEvent demoCtx demoLoop ⟨"error", .jstr "boom"⟩).halted = true ∧
      ∀ m ∈ demoLoop.app.messages, m.id ≠ demoCtx.aiMessageId →
        m ∈ (applyEvent demoCtx demoLoop ⟨"error", .jstr "boom"⟩).app.messages) :=
  error_event_halts demoCtx demoLoop (.jstr "boom") [⟨"token", .jstr "zzz"⟩] rfl

/-! ## C8 — at most one in-flight request per submit -/

/-- Claim C8: a submit first aborts any previous in-flight token, appends the user
entry followed by a fresh placeholder assistant entry marked "thinking",
and installs a fresh cancellation token; afterwards exactly the new token is
in flight (so never more than one). -/
theorem submit_single_inflight (st : AppState) (text : String)
    (hnext : st.nextToken ∉ st.abortedTokens)
    (href : ∀ tok, st.abortRef = some tok → tok ≠ st.nextToken) :
    (∀ tok, st.abortRef = some tok →
      tok ∈ (submitPrologue st text).1.app.abortedTokens) ∧
    (submitPrologue st text).1.app.abortRef = some st.nextToken ∧
    inFlight (submitPrologue st text).1.app = [st.nextToken] ∧
    (inFlight (submitPrologue st text).1.app).length ≤ 1 ∧
    (∃ pre : List Message,
      (submitPrologue st text).1.app.messages
        = pre ++ [⟨toString st.clock, text, true, st.clock, [], false⟩,
            ⟨toString (st.clock + 1), "", false, st.clock, [], true⟩]) ∧
    (submitPrologue st text).2.aiMessageId = toString (st.clock + 1) ∧
    (submitPrologue st text).1.halted = false ∧
    (submitPrologue st text).1.accumulatedText = "" := by
  rcases hab : st.abortRef with _ | tok <;>
    rcases hcur : st.currentConversationId with _ | cid
  · refine ⟨by simp [hab], ?_, ?_, ?_, ⟨st.messages, ?_⟩, ?_, ?_, ?_⟩ <;>
      simp [submitPrologue, hab, hcur, inFlight, hnext]
  · refine ⟨by simp [hab], ?_, ?_, ?_, ⟨st.messages, ?_⟩, ?_, ?_, ?_⟩ <;>
      simp [submitPrologue, hab, hcur, inFlight, hnext]
  · have hne : st.nextToken ∉ tok :: st.abortedTokens := by
      intro hmem
      rcases List.mem_cons.mp hmem with h | h
      · exact href tok hab h.symm
      · exact hnext h
    refine ⟨?_, ?_, ?_, ?_, ⟨st.messages, ?_⟩, ?_, ?_, ?_⟩ <;>
      simp [submitPrologue, hab, hcur, inFlight, hne]
  · have hne : st.nextToken ∉ tok :: st.abortedTokens := by
      intro hmem
      rcases List.mem_cons.mp hmem with h | h
      · exact href tok hab h.symm
      · exact hnext h
    refine ⟨?_, ?_, ?_, ?_, ⟨st.messages, ?_⟩, ?_, ?_, ?_⟩ <;>
      simp [submitPrologue, hab, hcur, inFlight, hne]

theorem submit_single_inflight_witness :
    ((∀ tok, AppState.abortRef { initState with abortRef := some 0, nextToken := 1 }
          = some tok →
        tok ∈ (submitPrologue { initState with abortRef := some 0, nextToken := 1 }
          "hi").1.app.abortedTokens) ∧
      (submitPrologue { initState with abortRef := some 0, nextToken := 1 }
          "hi").1.app.abortRef = some 1 ∧
      inFlight (submitPrologue { initState with abortRef := some 0, nextToken := 1 }
          "hi").1.app = [1] ∧
      (inFlight (submitPrologue { initState with abortRef := some 0, nextToken := 1 }
          "hi").1.app).length ≤ 1 ∧
      (∃ pre : List Message,
        (submitPrologue { initState with abortRef := some 0, nextToken := 1 }
            "hi").1.app.messages
          = pre ++ [⟨"0", "hi", true, 0, [], false⟩, ⟨"1", "", false, 0, [], true⟩]) ∧
      (submitPrologue { initState with abortRef := some 0, nextToken := 1 }
          "hi").2.aiMessageId = "1" ∧
      (submitPrologue { initState with abortRef := some 0, nextToken := 1 }
          "hi").1.halted = false ∧
      (submitPrologue { initState with abortRef := some 0, nextToken := 1 }
          "hi").1.accumulatedText = "") :=
  submit_single_inflight { initState with abortRef := some 0, nextToken := 1 } "hi"
    (by decide) (by intro tok h; cases h; decide)

/-! ## Tracking the placeholder through the loop (towards C2 and C7) -/

theorem str_append_empty (s : String) : s ++ "" = s := by
  cases s with
  | mk d =>
    show String.mk (d ++ []) = String.mk d
    rw [List.append_nil]

theorem str_append_assoc (a b c : String) : a ++ b ++ c = a ++ (b ++ c) := by
  cases a with
  | mk da =>
    cases b with
    | mk db =>
      cases c with
      | mk dc => exact congrArg String.mk (List.append_assoc da db dc)

/-- The placeholder assistant entry is the *last* entry of the local list
(it is appended last by the submit prologue), carries the turn's message id,
and its text always equals the accumulator. -/
def PlaceInv (ctx : TurnCtx) (s : LoopState) : Prop :=
  ∃ m, s.app.messages.getLast? = some m ∧ m.id = ctx.aiMessageId ∧
    m.text = s.accumulatedText

theorem applyEvent_place (ctx : TurnCtx) (s : LoopState) (e : StreamEvent)
    (he : e.event ≠ "error") (hinv : PlaceInv ctx s) :
    PlaceInv ctx (applyEvent ctx s e) ∧
    (applyEvent ctx s e).accumulatedText = s.accumulatedText ++ tokenText e ∧
    (e.event ≠ "result" → (applyEvent ctx s e).halted = s.halted) := by
  obtain ⟨m, hlast, hid, htext⟩ := hinv
  by_cases h1 : e.event = "token"
  · have happ : applyEvent ctx s e
        = applyTokenChars ctx.aiMessageId s
            (match e.data with | .jstr str => str | _ => "").data := by
      simp [applyEvent, h1]
    have htok : tokenText e = (match e.data with | .jstr str => str | _ => "") := by
      simp [tokenText, h1]
    rw [happ, applyTokenChars_spec, htok]
    rcases hd : (match e.data with | .jstr str => str | _ => "").data
      with _ | ⟨c, rest⟩ <;> rw [hd]
    · have hempty : (match e.data with | .jstr str => str | _ => "") = "" := by
        cases hmk : (match e.data with | .jstr str => str | _ => "") with
        | mk dd => rw [hmk] at hd; cases hd; rfl
      rw [hempty, str_append_empty]
      exact ⟨⟨m, hlast, hid, htext⟩, rfl, fun _ => rfl⟩
    · have hdat : s.accumulatedText ++ (match e.data with | .jstr str => str | _ => "")
          = String.mk (s.accumulatedText.data ++ c :: rest) := by
        cases hmk : (match e.data with | .jstr str => str | _ => "") with
        | mk dd =>
          rw [hmk] at hd
          cases hd
          rfl
      rw [hdat]
      refine ⟨⟨{ m with text := String.mk (s.accumulatedText.data ++ c :: rest) },
        ?_, hid, rfl⟩, rfl, fun _ => rfl⟩
      show (setMsgText ctx.aiMessageId _ s.app.messages).getLast? = _
      rw [setMsgText, List.getLast?_map, hlast]
      simp [hid]
  by_cases h2 : e.event = "reasoning"
  · have happ : applyEvent ctx s e = { s with
        stepCounter := s.stepCounter + 1
        app := { s.app with
          messages := addStep ctx.aiMessageId (mkReasoningStep ctx s e.data)
            s.app.messages } } := by
      simp [applyEvent, h2]
    have htok : tokenText e = "" := by simp [tokenText, h1]
    rw [happ, htok, str_append_empty]
    refine ⟨⟨{ m with reasoningSteps := m.reasoningSteps
        ++ [mkReasoningStep ctx s e.data] }, ?_, hid, htext⟩, rfl, fun _ => rfl⟩
    show (addStep ctx.aiMessageId _ s.app.messages).getLast? = _
    rw [addStep, List.getLast?_map, hlast]
    simp [hid]
  by_cases h3 : e.event = "tool_state"
  · have htok : tokenText e = "" := by simp [tokenText, h1]
    rw [htok, str_append_empty]
    by_cases hobj : e.data.isTruthyObject
    · have happ : applyEvent ctx s e
          = { s with app := { s.app with toolState := e.data } } := by
        simp [applyEvent, h3, hobj]
      rw [happ]
      exact ⟨⟨m, hlast, hid, htext⟩, rfl, fun _ => rfl⟩
    · have happ : applyEvent ctx s e = s := by
        simp [applyEvent, h3, hobj]
      rw [happ]
      exact ⟨⟨m, hlast, hid, htext⟩, rfl, fun _ => rfl⟩
  by_cases h4 : e.event = "metadata"
  · have happ : applyEvent ctx s e = s := by simp [applyEvent, h1, h2, h3, h4, he]
    have htok : tokenText e = "" := by simp [tokenText, h1]
    rw [happ, htok, str_append_empty]
    exact ⟨⟨m, hlast, hid, htext⟩, rfl, fun _ => rfl⟩
  by_cases h6 : e.event = "result"
  · have happ : applyEvent ctx s e = { s with
        halted := true
        app := { s.app with
          conversations := s.app.conversations.map (fun (conv : Conversation) =>
            if conv.id = ctx.chatId then
              { conv with lastMessage := some (jsSlice s.accumulatedText 80),
                          timestamp := s.app.clock }
            else conv)
          messages := clearThinking ctx.aiMessageId s.app.messages } } := by
      simp [applyEvent, h1, h2, h3, h4, he, h6]
    have htok : tokenText e = "" := by simp [tokenText, h1]
    rw [happ, htok, str_append_empty]
    refine ⟨⟨{ m with isThinking := false }, ?_, hid, htext⟩, rfl, fun h => absurd h6 h⟩
    show (clearThinking ctx.aiMessageId s.app.messages).getLast? = _
    rw [clearThinking, List.getLast?_map, hlast]
    simp [hid]
  · have happ : applyEvent ctx s e = s := by simp [applyEvent, h1, h2, h3, h4, he, h6]
    have htok : tokenText e = "" := by simp [tokenText, h1]
    rw [happ, htok, str_append_empty]
    exact ⟨⟨m, hlast, hid, htext⟩, rfl, fun _ => rfl⟩

theorem runLoop_place (ctx : TurnCtx) :
    ∀ es (s : LoopState), s.halted = false →
      (∀ e ∈ es, e.event ≠ "error" ∧ e.event ≠ "result") → PlaceInv ctx s →
      PlaceInv ctx (runLoop ctx s es) ∧
      (runLoop ctx s es).accumulatedText = s.accumulatedText ++ tokenConcat es ∧
      (runLoop ctx s es).halted = false := by
  intro es
  induction es with
  | nil =>
    intro s h0 _ hinv
    exact ⟨hinv, (str_append_empty _).symm, h0⟩
  | cons e es ih =>
    intro s h0 hmid hinv
    have he := hmid e (List.mem_cons_self _ _)
    obtain ⟨hinv', hacc, hhalt⟩ := applyEvent_place ctx s e he.1 hinv
    have hh' : (applyEvent ctx s e).halted = false := (hhalt he.2).trans h0
    have hrun : runLoop ctx s (e :: es) = runLoop ctx (applyEvent ctx s e) es := by
      simp [runLoop, h0]
    rw [hrun]
    obtain ⟨hinv'', hacc'', hh''⟩ :=
      ih (applyEvent ctx s e) hh' (fun e' h' => hmid e' (List.mem_cons_of_mem _ h')) hinv'
    refine ⟨hinv'', ?_, hh''⟩
    rw [hacc'', hacc, str_append_assoc]
    rfl

theorem submitPrologue_summary (st : AppState) (text : String) :
    (submitPrologue st text).1.halted = false ∧
    (submitPrologue st text).1.accumulatedText = "" ∧
    (submitPrologue st text).1.app.messages.getLast?
      = some ⟨toString (st.clock + 1), "", false, st.clock, [], true⟩ ∧
    (submitPrologue st text).2.aiMessageId = toString (st.clock + 1) := by
  rcases hab : st.abortRef with _ | tok <;>
    rcases hcur : st.currentConversationId with _ | cid <;>
    refine ⟨rfl, rfl, ?_, ?_⟩ <;>
    simp [submitPrologue, hab, hcur, List.getLast?_concat]

/-! ## C2 — token round-trip on a successful stream -/

/-- Claim C2: when the stream delivers events `es` (none of them terminal)
followed by the terminal `result`, the placeholder assistant entry — the last
entry of the local list — ends the turn with text exactly the concatenation,
in arrival order, of the `token` payloads of `es`, and with its "thinking"
flag cleared.  Fragments are appended immediately (each `token` event extends
the accumulator by exactly its payload, `applyEvent_place`) and never
reordered. -/
theorem token_stream_roundtrip (st : AppState) (q : String) (es : List StreamEvent)
    (d : JsValue) (hmid : ∀ e ∈ es, e.event ≠ "error" ∧ e.event ≠ "result") :
    ∃ m, (sendMessageComplete st q (es ++ [⟨"result", d⟩])).messages.getLast? = some m ∧
      m.text = tokenConcat es ∧ m.isThinking = false := by
  obtain ⟨hh, hacc, hlast, hai⟩ := submitPrologue_summary st q
  have hinv : PlaceInv (submitPrologue st q).2 (submitPrologue st q).1 :=
    ⟨_, hlast, by rw [hai], by rw [hacc]⟩
  obtain ⟨hinv1, hacc1, hh1⟩ :=
    runLoop_place (submitPrologue st q).2 es (submitPrologue st q).1 hh hmid hinv
  obtain ⟨hinv2, hacc2, -⟩ :=
    applyEvent_place (submitPrologue st q).2 (runLoop (submitPrologue st q).2
      (submitPrologue st q).1 es) ⟨"result", d⟩ (by intro h; simp at h) hinv1
  obtain ⟨m2, hlast2, hid2, htext2⟩ := hinv2
  have hrun : runLoop (submitPrologue st q).2 (submitPrologue st q).1
      (es ++ [⟨"result", d⟩])
      = applyEvent (submitPrologue st q).2
          (runLoop (submitPrologue st q).2 (submitPrologue st q).1 es)
          ⟨"result", d⟩ := by
    rw [runLoop_append]
    simp [runLoop, hh1]
  have hfin : sendMessageComplete st q (es ++ [⟨"result", d⟩])
      = finallyBlock (submitPrologue st q).2
          (applyEvent (submitPrologue st q).2
            (runLoop (submitPrologue st q).2 (submitPrologue st q).1 es)
            ⟨"result", d⟩).app := by
    rw [sendMessageComplete, hrun]
  refine ⟨{ m2 with isThinking := false }, ?_, ?_, rfl⟩
  · rw [hfin]
    show (clearThinking _ _).getLast? = _
    rw [clearThinking, List.getLast?_map, hlast2]
    simp [hid2]
  · show m2.text = tokenConcat es
    rw [htext2, hacc2, hacc1, hacc]
    have : tokenText ⟨"result", d⟩ = "" := rfl
    rw [this, str_append_empty]
    rfl

theorem token_stream_roundtrip_witness :
    ∃ m, (sendMessageComplete initState "hi"
        ([⟨"token", .jstr "He"⟩, ⟨"reasoning", .jobj []⟩, ⟨"token", .jstr "llo"⟩]
          ++ [⟨"result", .jnull⟩])).messages.getLast? = some m ∧
      m.text = "Hello" ∧ m.isThinking = false :=
  token_stream_roundtrip initState "hi"
    [⟨"token", .jstr "He"⟩, ⟨"reasoning", .jobj []⟩, ⟨"token", .jstr "llo"⟩]
    .jnull (by decide)

/-! ## C7 — cancellation retains partial text -/

/-- Claim C7: aborting the transport after the client has applied events `es`
(none terminal) clears the placeholder's "thinking" flag but *retains* its
partial accumulated text — the concatenation of the token payloads received
before the abort; no further event is applied (the aborted run applies
exactly `es`), and the loading flag and controller reference are cleared. -/
theorem abort_retains_partial_text (st : AppState) (q : String) (es : List StreamEvent)
    (hmid : ∀ e ∈ es, e.event ≠ "error" ∧ e.event ≠ "result") :
    (∃ m, (sendMessageAborted st q es).messages.getLast? = some m ∧
      m.text = tokenConcat es ∧ m.isThinking = false) ∧
    (sendMessageAborted st q es).isLoading = false ∧
    (sendMessageAborted st q es).abortRef = none := by
  obtain ⟨hh, hacc, hlast, hai⟩ := submitPrologue_summary st q
  have hinv : PlaceInv (submitPrologue st q).2 (submitPrologue st q).1 :=
    ⟨_, hlast, by rw [hai], by rw [hacc]⟩
  obtain ⟨hinv1, hacc1, -⟩ :=
    runLoop_place (submitPrologue st q).2 es (submitPrologue st q).1 hh hmid hinv
  obtain ⟨m1, hlast1, hid1, htext1⟩ := hinv1
  refine ⟨⟨{ m1 with isThinking := false }, ?_, ?_, rfl⟩, rfl, rfl⟩
  · show (clearThinking _ (clearThinking _ _)).getLast? = _
    rw [clearThinking, clearThinking, List.getLast?_map, List.getLast?_map, hlast1]
    simp [hid1]
  · show m1.text = tokenConcat es
    rw [htext1, hacc1, hacc]
    rfl

theorem abort_retains_partial_text_witness :
    ((∃ m, (sendMessageAborted initState "hi"
        [⟨"token", .jstr "a"⟩, ⟨"token", .jstr "b"⟩, ⟨"token", .jstr "c"⟩]).messages.getLast?
          = some m ∧ m.text = "abc" ∧ m.isThinking = false) ∧
      (sendMessageAborted initState "hi"
        [⟨"token", .jstr "a"⟩, ⟨"token", .jstr "b"⟩, ⟨"token", .jstr "c"⟩]).isLoading
        = false ∧
      (sendMessageAborted initState "hi"
        [⟨"token", .jstr "a"⟩, ⟨"token", .jstr "b"⟩, ⟨"token", .jstr "c"⟩]).abortRef
        = none) :=
  abort_retains_partial_text initState "hi"
    [⟨"token", .jstr "a"⟩, ⟨"token", .jstr "b"⟩, ⟨"token", .jstr "c"⟩] (by decide)

/-! ## C3 — the Content Transformer's replacement behaviour -/

/-- Counterexample to claim C3 as stated: a placeholder whose key *is*
present in the mapping (mapped to the empty fragment) is left verbatim by the
code — the callback's truthiness test `if (iframeHtml)` rejects the empty
string — whereas the claim as stated substitutes every present key. -/
theorem processContent_present_key_cex :
    processContent (some ⟨some [("1†chart", "")]⟩) "【1†chart】"
      ≠ processContentClaimed (some ⟨some [("1†chart", "")]⟩) "【1†chart】" := by
  decide

/-- Claim C3 (amended): the transformer decomposes its input into literal
characters and recognized placeholder tokens and rewrites it segment-wise:
each placeholder whose key maps to a *non-empty* fragment is replaced by the
blank-line-wrapped fragment; each placeholder whose key is absent — or maps
to the empty fragment, which the code's truthiness test treats as absent —
stays verbatim; literal text is copied unchanged.  (The function is pure:
the input string is not mutated, outputs depend only on the arguments.) -/
theorem processContent_matches_segment_spec (ts : Option ToolStateMap) (text : String) :
    processContent ts text = processContentSpec ts text := by
  cases ts with
  | none => rfl
  | some t =>
    cases h : t.id_to_iframe with
    | none => simp [processContent, processContentSpec, h]
    | some m =>
      simp only [processContent, processContentSpec, h]
      exact congrArg String.mk (replaceGo_eq_segsRender _ _)

/-! ## C4 — idempotence of the Content Transformer -/

/-- Claim C4: when no fragment of the mapping contains a placeholder token
(`phFree`), the transformer is idempotent — re-running it on its own output
changes nothing.  Already-substituted fragments are not re-transformed: the
blank lines wrapping a substituted fragment prevent the pattern (which
cannot contain a newline) from straddling fragment boundaries, and kept
placeholders re-match to the same verbatim decision. -/
theorem processContent_idempotent (ts : Option ToolStateMap) (text : String)
    (hfree : ∀ t m, ts = some t → t.id_to_iframe = some m →
      ∀ p ∈ m, phFree p.2.data = true) :
    processContent ts (processContent ts text) = processContent ts text := by
  cases ts with
  | none => rfl
  | some t =>
    cases h : t.id_to_iframe with
    | none => simp [processContent, h]
    | some m =>
      have hl : ∀ k f, m.lookup k = some f → phFree f.data = true := by
        intro k f hk
        obtain ⟨l1, l2, hm, -⟩ := List.lookup_eq_some_iff.mp hk
        exact hfree t m rfl h (k, f)
          (by rw [hm]; exact List.mem_append.mpr (Or.inr (List.mem_cons_self _ _)))
      simp only [processContent, h]
      exact congrArg String.mk (replaceGo_idem (fun k => m.lookup k) hl text.data)

theorem processContent_idempotent_witness :
    processContent (some ⟨some [("1†chart", "<iframe src=q></iframe>")]⟩)
        (processContent (some ⟨some [("1†chart", "<iframe src=q></iframe>")]⟩)
          "x【1†chart】y【2†chart】")
      = processContent (some ⟨some [("1†chart", "<iframe src=q></iframe>")]⟩)
          "x【1†chart】y【2†chart】" :=
  processContent_idempotent _ _ (by
    intro t m h1 h2
    cases h1
    cases h2
    decide)

end ChatClient
